import Mathlib

/-!
Shallow embedding of the tracking / smoothing core of `src/app.js`
(emoji-face-detector).  Numbers are modelled as rationals; a JavaScript
number that may be `NaN` (or an `undefined` that is about to enter
arithmetic) is modelled as `Option ℚ` with `none` standing for the
non-numeric value.  A JavaScript object holding an expression vector is
modelled as an association list in property-insertion order; the JS `Map`
of tracks is an association list in insertion order as well (JS `Map.set`
on an existing key keeps its position, which the in-place update below
mirrors).  `Math.hypot` comparisons are carried out on squared distances:
for nonnegative `d = sqrt d2` and a radius `r`, `d < r` holds iff
`0 < r ∧ d2 < r ^ 2`, and comparisons between two such square roots agree
with comparisons of the squares, so every branch below decides exactly as
the source does on rational inputs.
-/

namespace EmojiFace

/-- A JavaScript numeric value that may be `NaN` (`none`). -/
abbrev JNum := Option ℚ

/-- JS multiplication: `NaN` is absorbing. -/
def jmul (a b : JNum) : JNum :=
  match a, b with
  | some x, some y => some (x * y)
  | _, _ => none

/-- JS addition: `NaN` is absorbing. -/
def jadd (a b : JNum) : JNum :=
  match a, b with
  | some x, some y => some (x + y)
  | _, _ => none

/-- JS subtraction: `NaN` is absorbing. -/
def jsub (a b : JNum) : JNum :=
  match a, b with
  | some x, some y => some (x - y)
  | _, _ => none

/-- JS `Math.abs`: `NaN` stays `NaN`. -/
def jabs (a : JNum) : JNum :=
  match a with
  | some x => some |x|
  | none => none

/-- JS `<`: any comparison involving `NaN` is false. -/
def jlt (a b : JNum) : Bool :=
  match a, b with
  | some x, some y => decide (x < y)
  | _, _ => false

/-- An expression-probability vector: a JS object, i.e. an association
list of named components in insertion order. -/
abbrev Expr := List (String × JNum)

/-- JS property read `o[k]` followed by use in arithmetic: a missing key
yields `undefined`, which behaves as `NaN` (`none`) there, exactly as a
stored `NaN` does. -/
def getProp : Expr → String → JNum
  | [], _ => none
  | p :: rest, k => if p.1 = k then p.2 else getProp rest k

/-- `src/app.js` line 116: `emaExpressions(prev, cur, alpha)`.
`if (!prev) return cur;` then `out[k] = alpha*prev[k] + (1-alpha)*cur[k]`
for each own key `k` of `cur` (in insertion order). -/
def emaExpressions (prev : Option Expr) (cur : Expr) (alpha : ℚ) : Expr :=
  match prev with
  | none => cur
  | some p =>
    cur.map fun e =>
      (e.1, jadd (jmul (some alpha) (getProp p e.1)) (jmul (some (1 - alpha)) e.2))

/-- A face box as delivered by the detector (`det.detection.box`). -/
structure Box where
  x : ℚ
  y : ℚ
  width : ℚ
  height : ℚ
  deriving DecidableEq

/-- A detection of one frame; `trackId` is the field the matcher writes
(`det.trackId`), absent on entry. -/
structure Det where
  box : Box
  expressions : Expr
  trackId : Option ℕ := none
  deriving DecidableEq

/-- One entry of the `tracks` map: `{cx, cy, lastSeen, exprEMA}`. -/
structure Track where
  cx : ℚ
  cy : ℚ
  lastSeen : ℚ
  exprEMA : Expr
  deriving DecidableEq

/-- The tracker's mutable state: the insertion-ordered `tracks` map and
the `nextId` counter (`let nextId = 1` initially). -/
structure St where
  tracks : List (ℕ × Track)
  nextId : ℕ
  deriving DecidableEq

/-- `centerOf(box).x` (line 79). -/
def centerX (b : Box) : ℚ := b.x + b.width / 2

/-- `centerOf(box).y` (line 79). -/
def centerY (b : Box) : ℚ := b.y + b.height / 2

/-- Square of `Math.hypot(c.x - t.cx, c.y - t.cy)` (line 93). -/
def dist2 (cx cy : ℚ) (t : Track) : ℚ := (cx - t.cx) ^ 2 + (cy - t.cy) ^ 2

/-- The staleness test of line 92: a track is an active candidate when
`now - t.lastSeen <= 1500`. -/
def isActive (now : ℚ) (p : ℕ × Track) : Prop := now - p.2.lastSeen ≤ 1500

instance (now : ℚ) (p : ℕ × Track) : Decidable (isActive now p) := by
  unfold isActive; infer_instance

/-- `sqrt d2 < r` expressed on the square: for `d2 ≥ 0` this is exactly
`0 < r ∧ d2 < r ^ 2`. -/
def sqrtLt (d2 r : ℚ) : Prop := 0 < r ∧ d2 < r ^ 2

instance (d2 r : ℚ) : Decidable (sqrtLt d2 r) := by
  unfold sqrtLt; infer_instance

/-- The candidate scan of lines 89–95: fold over `tracks.entries()` in
insertion order, skipping stale entries, keeping the strictly best
(squared) distance; the accumulator starts at `(null, 99999)` — here
`(none, 99999 ^ 2)` since distances are squared. -/
def findBest (now cx cy : ℚ) : List (ℕ × Track) → Option ℕ → ℚ → Option ℕ × ℚ
  | [], bestId, bestD2 => (bestId, bestD2)
  | (id, t) :: rest, bestId, bestD2 =>
    if 1500 < now - t.lastSeen then
      findBest now cx cy rest bestId bestD2
    else if dist2 cx cy t < bestD2 then
      findBest now cx cy rest (some id) (dist2 cx cy t)
    else
      findBest now cx cy rest bestId bestD2

/-- The `else` branch of line 103: allocate `nextId`, insert a fresh
track (`Map.set` with a fresh key appends), tag the detection.  The
returned `Bool` records that the create branch ran. -/
def createTrack (now cx cy : ℚ) (s : St) (det : Det) : Det × Bool × St :=
  ({ det with trackId := some s.nextId }, true,
   { tracks := s.tracks ++ [(s.nextId, ⟨cx, cy, now, det.expressions⟩)],
     nextId := s.nextId + 1 })

/-- The body of the per-detection loop of lines 87–109: nearest active
candidate, acceptance test `bestD < max(width, height)`, then either the
in-place update of the matched track (lines 97–102) or track creation. -/
def step (now : ℚ) (s : St) (det : Det) : Det × Bool × St :=
  let cx := centerX det.box
  let cy := centerY det.box
  match findBest now cx cy s.tracks none (99999 ^ 2) with
  | (some bid, bestD2) =>
    if sqrtLt bestD2 (max det.box.width det.box.height) then
      ({ det with trackId := some bid }, false,
       { s with
         tracks := s.tracks.map fun p =>
           if p.1 = bid then
             (p.1, ⟨cx, cy, now,
                    emaExpressions (some p.2.exprEMA) det.expressions (3 / 5)⟩)
           else p })
    else createTrack now cx cy s det
  | (none, _) => createTrack now cx cy s det

/-- The `for (const det of detections)` loop of line 87, threading the
state and recording each detection's branch. -/
def runDets (now : ℚ) : List Det → St → List (Det × Bool) × St
  | [], s => ([], s)
  | d :: ds, s =>
    let r := step now s d
    let rest := runDets now ds r.2.2
    ((r.1, r.2.1) :: rest.1, rest.2)

/-- One whole `assignTracks` call (lines 84–114): process the batch, then
the cleanup of lines 111–113 (`delete` when `now - lastSeen > 3000`);
also reports which identities the cleanup removed. -/
def frameStep (now : ℚ) (dets : List Det) (s : St) :
    List (Det × Bool) × List ℕ × St :=
  let r := runDets now dets s
  (r.1,
   ((r.2.tracks.filter fun p => decide (3000 < now - p.2.lastSeen)).map Prod.fst),
   { r.2 with tracks := r.2.tracks.filter fun p => decide (now - p.2.lastSeen ≤ 3000) })

/-- `assignTracks(detections)` at clock value `now`: the annotated batch
(with the branch flag) and the state after cleanup. -/
def assignTracks (now : ℚ) (dets : List Det) (s : St) : List (Det × Bool) × St :=
  ((frameStep now dets s).1, (frameStep now dets s).2.2)

/-- Identities handed out by the create branch of one batch, in batch
order. -/
def createdOf (out : List (Det × Bool)) : List ℕ :=
  out.filterMap fun p => if p.2 then p.1.trackId else none

/-- A whole run: successive `assignTracks` calls, each with its own clock
sample and batch, recording per frame the created and the expired
identities. -/
def runFrames : List (ℚ × List Det) → St → List (List ℕ × List ℕ) × St
  | [], s => ([], s)
  | f :: fs, s =>
    let r := frameStep f.1 f.2 s
    let rest := runFrames fs r.2.2
    ((createdOf r.1, r.2.1) :: rest.1, rest.2)

/-- The state invariant the program maintains: every key of the map is
below `nextId`, and keys appear in strictly increasing (= insertion)
order. -/
def Inv (s : St) : Prop :=
  (∀ p ∈ s.tracks, p.1 < s.nextId) ∧
  List.Pairwise (fun p q : ℕ × Track => p.1 < q.1) s.tracks

/-- `tracks.get(id)` (lines 98, 136, 149). -/
def mapGet : List (ℕ × Track) → ℕ → Option Track
  | [], _ => none
  | p :: rest, id => if p.1 = id then some p.2 else mapGet rest id

/-- The expression vector the renderer uses for a detection (lines 136
and 149): `tracks.get(det.trackId)?.exprEMA || det.expressions` — a
present track's `exprEMA` object is truthy, everything else falls back to
the raw vector. -/
def exprForDet (tracks : List (ℕ × Track)) (det : Det) : Expr :=
  match det.trackId with
  | some id =>
    match mapGet tracks id with
    | some t => t.exprEMA
    | none => det.expressions
  | none => det.expressions

/-- `(+q.toFixed(1))`: round to one decimal and read back as a number.
ECMA `toFixed` formats `-x` as the negation of the format of `x`, and on
a nonnegative argument picks, among the integers `n` with `n / 10` closest
to it, the larger one — so ties are resolved away from zero:
`(0.25).toFixed(1) = "0.3"` and `(-0.25).toFixed(1) = "-0.3"`. -/
def round1 (q : ℚ) : ℚ :=
  if q < 0 then -((⌊-q * 10 + 1 / 2⌋ : ℚ) / 10) else (⌊q * 10 + 1 / 2⌋ : ℚ) / 10

/-- One record of the dumped `detections` array (lines 268–273). -/
structure SerDet where
  id : Option ℕ
  bx : ℚ
  by' : ℚ
  bw : ℚ
  bh : ℚ
  expressions : Expr
  deriving DecidableEq

/-- The dump object of `serializeDetections` (lines 267–275); `Date.now()`
is passed in as `ts`. -/
structure Dump where
  ts : ℚ
  count : ℕ
  detections : List SerDet
  deriving DecidableEq

/-- `serializeDetections(ds)` (lines 267–275). -/
def serializeDetections (ts : ℚ) (ds : List Det) : Dump :=
  { ts := ts
    count := ds.length
    detections := ds.map fun d =>
      { id := d.trackId
        bx := round1 d.box.x
        by' := round1 d.box.y
        bw := round1 d.box.width
        bh := round1 d.box.height
        expressions := d.expressions } }

/-- Iterated smoothing against a constant current vector `V`:
`smoothN V alpha n start` is the track's `exprEMA` after `n` updates. -/
def smoothN (V : Expr) (alpha : ℚ) : ℕ → Expr → Expr
  | 0, e => e
  | n + 1, e => emaExpressions (some (smoothN V alpha n e)) V alpha

/-! ### Lemmas about property lookup and the smoother -/

theorem getProp_map (f : String → JNum → JNum) (l : Expr) (k : String) :
    getProp (l.map fun e => (e.1, f e.1 e.2)) k =
      if k ∈ l.map Prod.fst then f k (getProp l k) else none := by
  induction l with
  | nil => simp [getProp]
  | cons e rest ih =>
    by_cases h : e.1 = k
    · subst h
      simp [getProp, ih]
    · have h' : ¬k = e.1 := fun hh => h hh.symm
      simp only [List.map_cons, getProp, if_neg h, ih]
      by_cases hm : k ∈ List.map Prod.fst rest <;> simp [hm, h, h']

theorem getProp_eq_none_of_not_mem (l : Expr) (k : String)
    (h : k ∉ l.map Prod.fst) : getProp l k = none := by
  induction l with
  | nil => rfl
  | cons e rest ih =>
    simp only [List.map_cons, List.mem_cons] at h
    push_neg at h
    simp [getProp, Ne.symm h.1, ih h.2]

theorem mem_of_getProp_eq_some (l : Expr) (k : String) (v : ℚ)
    (h : getProp l k = some v) : k ∈ l.map Prod.fst := by
  by_contra hk
  rw [getProp_eq_none_of_not_mem l k hk] at h
  exact Option.noConfusion h

theorem emaExpressions_keys (p cur : Expr) (alpha : ℚ) :
    (emaExpressions (some p) cur alpha).map Prod.fst = cur.map Prod.fst := by
  simp [emaExpressions]

theorem emaExpressions_getProp (p cur : Expr) (alpha : ℚ) (k : String)
    (h : k ∈ cur.map Prod.fst) :
    getProp (emaExpressions (some p) cur alpha) k =
      jadd (jmul (some alpha) (getProp p k)) (jmul (some (1 - alpha)) (getProp cur k)) := by
  simpa [emaExpressions, h] using
    getProp_map (fun k v => jadd (jmul (some alpha) (getProp p k)) (jmul (some (1 - alpha)) v))
      cur k

/-! ### Claims about the Expression Smoother (C2, C7, C9) -/

/-- Claim C7: smoothing with an absent previous value returns the current
vector exactly, for any alpha (`if (!prev) return cur;`). -/
theorem C7_cold_start (cur : Expr) (alpha : ℚ) : emaExpressions none cur alpha = cur := rfl

/-- Claim C2 fails as stated: a component present in `current` but not in
`previous` does not come out as the current supplied value as-is; the JS
read `prev[k]` yields `undefined`, which turns the blend into `NaN`
(modelled `none`), not `some (1/2)`. -/
theorem C2_cex :
    getProp (emaExpressions (some [("happy", some (1/2))])
        [("happy", some (1/2)), ("sad", some (1/2))] (1/2)) "sad" = none
    ∧ (none : JNum) ≠ some (1/2 : ℚ) := by
  constructor
  · norm_num +decide [emaExpressions, getProp, jadd, jmul]
  · simp

/-- Claim C2 (amended): when `previous` is present the result enumerates
exactly the key set of `current`; a component present in both vectors is
`alpha * previous[name] + (1 - alpha) * current[name]`; a component
present in `current` but not in `previous` comes out as `NaN` (`none`),
because `undefined` enters the arithmetic. -/
theorem C2_ema_semantics (p cur : Expr) (alpha : ℚ) :
    ((emaExpressions (some p) cur alpha).map Prod.fst = cur.map Prod.fst)
    ∧ (∀ k pv cv, getProp p k = some pv → getProp cur k = some cv →
        getProp (emaExpressions (some p) cur alpha) k
          = some (alpha * pv + (1 - alpha) * cv))
    ∧ (∀ k, k ∉ p.map Prod.fst → k ∈ cur.map Prod.fst →
        getProp (emaExpressions (some p) cur alpha) k = none) := by
  refine ⟨emaExpressions_keys p cur alpha, ?_, ?_⟩
  · intro k pv cv hp hc
    rw [emaExpressions_getProp p cur alpha k (mem_of_getProp_eq_some _ _ _ hc), hp, hc]
    rfl
  · intro k hpk hck
    rw [emaExpressions_getProp p cur alpha k hck, getProp_eq_none_of_not_mem p k hpk]
    rfl

theorem C2_witness :
    getProp (emaExpressions (some [("happy", some (9/10))]) [("happy", some (1/2))] (3/5))
        "happy" = some ((3/5) * (9/10) + (1 - 3/5) * (1/2))
    ∧ getProp (emaExpressions (some [("happy", some (9/10))])
        [("happy", some (1/2)), ("sad", some (1/4))] (3/5)) "sad" = none :=
  ⟨(C2_ema_semantics _ _ _).2.1 "happy" _ _ (by norm_num +decide [getProp])
      (by norm_num +decide [getProp]),
   (C2_ema_semantics _ _ _).2.2 "sad" (by norm_num +decide) (by norm_num +decide)⟩

/-- Claim C9 fails as stated ("for every starting vector"): starting from
a vector that lacks a key of `V`, that component is `NaN` after every
update, it never equals `V`'s component, and the componentwise difference
(`NaN`) does not strictly shrink between consecutive calls (JS `<` on
`NaN` is false). -/
theorem C9_cex :
    getProp (smoothN [("happy", some (1/2)), ("sad", some (1/2))] (1/2) 1
        [("happy", some 1)]) "sad" = none
    ∧ getProp (smoothN [("happy", some (1/2)), ("sad", some (1/2))] (1/2) 2
        [("happy", some 1)]) "sad" = none
    ∧ jlt
        (jabs (jsub (getProp (smoothN [("happy", some (1/2)), ("sad", some (1/2))] (1/2) 2
          [("happy", some 1)]) "sad") (some (1/2))))
        (jabs (jsub (getProp (smoothN [("happy", some (1/2)), ("sad", some (1/2))] (1/2) 1
          [("happy", some 1)]) "sad") (some (1/2)))) = false
    ∧ getProp (smoothN [("happy", some (1/2)), ("sad", some (1/2))] (1/2) 1
        [("happy", some 1)]) "sad" ≠ some (1/2 : ℚ) := by
  norm_num +decide [smoothN, emaExpressions, getProp, jadd, jmul, jsub, jabs, jlt]

/-- Claim C9 (amended): for a starting vector holding a numeric value at
a key of `V`, with `0 < alpha < 1`, that component after `n + 1` constant
updates is exactly `v + alpha ^ (n + 1) * (p - v)` — so its distance to
`V`'s value is `alpha ^ (n + 1) * |p - v|`, which strictly shrinks on
every call unless the component already equals `v`. -/
theorem C9_smoothing_convergence (start V : Expr) (alpha p v : ℚ) (k : String)
    (h0 : 0 < alpha) (h1 : alpha < 1)
    (hs : getProp start k = some p) (hV : getProp V k = some v) (n : ℕ) :
    getProp (smoothN V alpha (n + 1) start) k = some (v + alpha ^ (n + 1) * (p - v))
    ∧ (p ≠ v → |alpha ^ (n + 1) * (p - v)| < |alpha ^ n * (p - v)|) := by
  have hVk : k ∈ V.map Prod.fst := mem_of_getProp_eq_some _ _ _ hV
  have key : ∀ m : ℕ, getProp (smoothN V alpha m start) k
      = some (v + alpha ^ m * (p - v)) := by
    intro m
    induction m with
    | zero =>
      rw [show v + alpha ^ 0 * (p - v) = p by ring]
      exact hs
    | succ m ih =>
      rw [smoothN, emaExpressions_getProp _ _ _ _ hVk, ih, hV]
      exact congrArg some (by ring)
  refine ⟨key (n + 1), fun hpv => ?_⟩
  rw [abs_mul, abs_mul, abs_pow, abs_pow, abs_of_pos h0]
  exact mul_lt_mul_of_pos_right (pow_lt_pow_right_of_lt_one₀ h0 h1 (Nat.lt_succ_self n))
    (abs_pos.mpr (sub_ne_zero.mpr hpv))

theorem C9_witness :
    getProp (smoothN [("happy", some (1/2))] (1/2) 1 [("happy", some 1)]) "happy"
        = some (1/2 + (1/2) ^ 1 * (1 - 1/2))
    ∧ ((1 : ℚ) ≠ 1/2 → |(1/2 : ℚ) ^ 1 * (1 - 1/2)| < |(1/2 : ℚ) ^ 0 * (1 - 1/2)|) :=
  C9_smoothing_convergence [("happy", some 1)] [("happy", some (1/2))] (1/2) 1 (1/2) "happy"
    (by norm_num) (by norm_num) (by norm_num +decide [getProp])
    (by norm_num +decide [getProp]) 0

/-! ### Characterization of the candidate scan -/

/-- The scan of lines 89–95 either leaves the accumulator untouched — and
then every active entry is at least as far as the accumulated distance —
or returns the first active entry achieving the minimum (squared)
distance, strictly below the accumulated one: every active entry before
it is strictly farther, every active entry after it no closer. -/
theorem findBest_split (now cx cy : ℚ) (l : List (ℕ × Track)) (bid : Option ℕ) (bd : ℚ) :
    (findBest now cx cy l bid bd = (bid, bd) ∧
      ∀ p ∈ l, isActive now p → bd ≤ dist2 cx cy p.2)
    ∨ (∃ l₁ j t l₂, l = l₁ ++ (j, t) :: l₂ ∧ isActive now (j, t) ∧
        dist2 cx cy t < bd ∧
        findBest now cx cy l bid bd = (some j, dist2 cx cy t) ∧
        (∀ p ∈ l₁, isActive now p → dist2 cx cy t < dist2 cx cy p.2) ∧
        (∀ p ∈ l₂, isActive now p → dist2 cx cy t ≤ dist2 cx cy p.2)) := by
  induction l generalizing bid bd with
  | nil => exact Or.inl ⟨rfl, by simp⟩
  | cons e rest ih =>
    obtain ⟨id, t⟩ := e
    by_cases hstale : 1500 < now - t.lastSeen
    · have hna : ¬isActive now (id, t) := not_le.mpr hstale
      have hfb : findBest now cx cy ((id, t) :: rest) bid bd
          = findBest now cx cy rest bid bd := by
        simp [findBest, hstale]
      rcases ih bid bd with ⟨h1, h2⟩ | ⟨l₁, j, tj, l₂, heq, hactj, hlt, hres, hl₁, hl₂⟩
      · refine Or.inl ⟨hfb.trans h1, ?_⟩
        intro p hp hap
        rcases List.mem_cons.mp hp with rfl | hp'
        · exact absurd hap hna
        · exact h2 p hp' hap
      · refine Or.inr ⟨(id, t) :: l₁, j, tj, l₂, by rw [heq, List.cons_append], hactj, hlt,
          hfb.trans hres, ?_, hl₂⟩
        intro p hp hap
        rcases List.mem_cons.mp hp with rfl | hp'
        · exact absurd hap hna
        · exact hl₁ p hp' hap
    · have hact : isActive now (id, t) := not_lt.mp hstale
      by_cases hd : dist2 cx cy t < bd
      · have hfb : findBest now cx cy ((id, t) :: rest) bid bd
            = findBest now cx cy rest (some id) (dist2 cx cy t) := by
          simp [findBest, hstale, hd]
        rcases ih (some id) (dist2 cx cy t) with
          ⟨h1, h2⟩ | ⟨l₁, j, tj, l₂, heq, hactj, hlt, hres, hl₁, hl₂⟩
        · exact Or.inr ⟨[], id, t, rest, rfl, hact, hd, hfb.trans h1, by simp, h2⟩
        · refine Or.inr ⟨(id, t) :: l₁, j, tj, l₂, by rw [heq, List.cons_append], hactj,
            hlt.trans hd, hfb.trans hres, ?_, hl₂⟩
          intro p hp hap
          rcases List.mem_cons.mp hp with rfl | hp'
          · exact hlt
          · exact hl₁ p hp' hap
      · have hfb : findBest now cx cy ((id, t) :: rest) bid bd
            = findBest now cx cy rest bid bd := by
          simp [findBest, hstale, hd]
        rcases ih bid bd with ⟨h1, h2⟩ | ⟨l₁, j, tj, l₂, heq, hactj, hlt, hres, hl₁, hl₂⟩
        · refine Or.inl ⟨hfb.trans h1, ?_⟩
          intro p hp hap
          rcases List.mem_cons.mp hp with rfl | hp'
          · exact not_lt.mp hd
          · exact h2 p hp' hap
        · refine Or.inr ⟨(id, t) :: l₁, j, tj, l₂, by rw [heq, List.cons_append], hactj, hlt,
            hfb.trans hres, ?_, hl₂⟩
          intro p hp hap
          rcases List.mem_cons.mp hp with rfl | hp'
          · exact hlt.trans_le (not_lt.mp hd)
          · exact hl₁ p hp' hap

/-- Reduction of `step` when the scan found no candidate. -/
theorem step_of_none (now : ℚ) (s : St) (det : Det) (bd : ℚ)
    (h : findBest now (centerX det.box) (centerY det.box) s.tracks none (99999 ^ 2)
      = (none, bd)) :
    step now s det = createTrack now (centerX det.box) (centerY det.box) s det := by
  simp only [step, h]

/-- Reduction of `step` when the scan found a candidate. -/
theorem step_of_some (now : ℚ) (s : St) (det : Det) (j : ℕ) (bd : ℚ)
    (h : findBest now (centerX det.box) (centerY det.box) s.tracks none (99999 ^ 2)
      = (some j, bd)) :
    step now s det =
      if sqrtLt bd (max det.box.width det.box.height) then
        ({ det with trackId := some j }, false,
         { s with
           tracks := s.tracks.map fun p =>
             if p.1 = j then
               (p.1, ⟨centerX det.box, centerY det.box, now,
                      emaExpressions (some p.2.exprEMA) det.expressions (3 / 5)⟩)
             else p })
      else createTrack now (centerX det.box) (centerY det.box) s det := by
  simp only [step, h]

/-! ### Claims about the Frame Matcher (C5, C10) -/

/-- Claim C5 fails as stated: with one active track at distance 100000
from the detection's centroid and a detection box of width 1000000, the
nearest active candidate's distance is strictly below
`max(width, height)`, yet the matcher rejects it and creates a fresh
track, because the scan's accumulator starts at the sentinel 99999 and a
candidate at distance ≥ 99999 is never recorded. -/
theorem C5_cex :
    isActive 0 (1, (⟨0, 0, 0, []⟩ : Track))
    ∧ sqrtLt (dist2 (centerX ⟨-400000, -(1/2), 1000000, 1⟩)
        (centerY ⟨-400000, -(1/2), 1000000, 1⟩) ⟨0, 0, 0, []⟩)
        (max (1000000 : ℚ) 1)
    ∧ (step 0 ⟨[(1, ⟨0, 0, 0, []⟩)], 2⟩
        ⟨⟨-400000, -(1/2), 1000000, 1⟩, [], none⟩).2.1 = true
    ∧ (step 0 ⟨[(1, ⟨0, 0, 0, []⟩)], 2⟩
        ⟨⟨-400000, -(1/2), 1000000, 1⟩, [], none⟩).1.trackId = some 2 := by
  refine ⟨by norm_num [isActive], by norm_num [sqrtLt, dist2, centerX, centerY], ?_, ?_⟩ <;>
    norm_num [step, findBest, centerX, centerY, dist2, sqrtLt, createTrack]

/-- Claim C5 (amended): a detection is matched (no track created) iff
some active track lies strictly within both the sentinel distance 99999
and `max(detection box width, detection box height)` of the detection's
centroid; when matched, the assigned identity belongs to an active track
at minimum distance and that track alone is touched (centroid, lastSeen
and EMA updated in place); when rejected or no candidate exists, a fresh
track with identity `nextId` is created and assigned. -/
theorem C5_greedy_match (now : ℚ) (s : St) (det : Det) :
    ((step now s det).2.1 = false ↔
      ∃ p ∈ s.tracks, isActive now p ∧
        dist2 (centerX det.box) (centerY det.box) p.2 < 99999 ^ 2 ∧
        sqrtLt (dist2 (centerX det.box) (centerY det.box) p.2)
          (max det.box.width det.box.height))
    ∧ ((step now s det).2.1 = false →
        ∃ bid t, (bid, t) ∈ s.tracks ∧ isActive now (bid, t) ∧
          (∀ q ∈ s.tracks, isActive now q →
            dist2 (centerX det.box) (centerY det.box) t ≤
              dist2 (centerX det.box) (centerY det.box) q.2) ∧
          (step now s det).1.trackId = some bid ∧
          (step now s det).2.2.nextId = s.nextId ∧
          (step now s det).2.2.tracks = (s.tracks.map fun p =>
            if p.1 = bid then
              (p.1, ⟨centerX det.box, centerY det.box, now,
                     emaExpressions (some p.2.exprEMA) det.expressions (3 / 5)⟩)
            else p))
    ∧ ((step now s det).2.1 = true →
        (step now s det).1.trackId = some s.nextId ∧
        (step now s det).2.2.nextId = s.nextId + 1 ∧
        (step now s det).2.2.tracks =
          s.tracks ++ [(s.nextId, ⟨centerX det.box, centerY det.box, now,
            det.expressions⟩)]) := by
  rcases findBest_split now (centerX det.box) (centerY det.box) s.tracks none (99999 ^ 2)
    with ⟨h1, h2⟩ | ⟨l₁, j, tj, l₂, heq, hactj, hlt, hres, hl₁, hl₂⟩
  · have hstep := step_of_none now s det _ h1
    refine ⟨⟨fun hfalse => ?_, fun hex => ?_⟩, fun hfalse => ?_, fun _ => ?_⟩
    · rw [hstep] at hfalse; simp [createTrack] at hfalse
    · obtain ⟨p, hp, hap, h99, _⟩ := hex
      exact absurd h99 (not_lt.mpr (h2 p hp hap))
    · rw [hstep] at hfalse; simp [createTrack] at hfalse
    · rw [hstep]; exact ⟨rfl, rfl, rfl⟩
  · have hstep := step_of_some now s det j _ hres
    have hmem : (j, tj) ∈ s.tracks := by
      rw [heq]; exact List.mem_append_right _ (List.mem_cons_self _ _)
    have hmin : ∀ q ∈ s.tracks, isActive now q →
        dist2 (centerX det.box) (centerY det.box) tj ≤
          dist2 (centerX det.box) (centerY det.box) q.2 := by
      intro q hq haq
      rw [heq] at hq
      rcases List.mem_append.mp hq with hq1 | hq2
      · exact (hl₁ q hq1 haq).le
      · rcases List.mem_cons.mp hq2 with rfl | hq3
        · exact le_rfl
        · exact hl₂ q hq3 haq
    by_cases hacc : sqrtLt (dist2 (centerX det.box) (centerY det.box) tj)
        (max det.box.width det.box.height)
    · rw [if_pos hacc] at hstep
      refine ⟨⟨fun _ => ⟨(j, tj), hmem, hactj, hlt, hacc⟩, fun _ => ?_⟩,
        fun _ => ⟨j, tj, hmem, hactj, hmin, ?_, ?_, ?_⟩, fun htrue => ?_⟩
      · rw [hstep]
      · rw [hstep]
      · rw [hstep]
      · rw [hstep]
      · rw [hstep] at htrue; simp at htrue
    · rw [if_neg hacc] at hstep
      refine ⟨⟨fun hfalse => ?_, fun hex => ?_⟩, fun hfalse => ?_, fun _ => ?_⟩
      · rw [hstep] at hfalse; simp [createTrack] at hfalse
      · obtain ⟨p, hp, hap, _, hpr⟩ := hex
        exact absurd ⟨hpr.1, lt_of_le_of_lt (hmin p hp hap) hpr.2⟩ hacc
      · rw [hstep] at hfalse; simp [createTrack] at hfalse
      · rw [hstep]; exact ⟨rfl, rfl, rfl⟩

theorem C5_witness :
    (step 0 ⟨[(1, ⟨5, 5, 0, []⟩)], 2⟩ ⟨⟨0, 0, 10, 10⟩, [], none⟩).2.1 = false
    ∧ ((step 0 ⟨[(1, ⟨5, 5, 0, []⟩)], 2⟩ ⟨⟨1000, 1000, 10, 10⟩, [], none⟩).1.trackId = some 2
       ∧ (step 0 ⟨[(1, ⟨5, 5, 0, []⟩)], 2⟩ ⟨⟨1000, 1000, 10, 10⟩, [], none⟩).2.2.nextId = 2 + 1
       ∧ (step 0 ⟨[(1, ⟨5, 5, 0, []⟩)], 2⟩ ⟨⟨1000, 1000, 10, 10⟩, [], none⟩).2.2.tracks =
          [(1, ⟨5, 5, 0, []⟩)] ++ [(2, ⟨centerX ⟨1000, 1000, 10, 10⟩,
            centerY ⟨1000, 1000, 10, 10⟩, 0, []⟩)]) :=
  ⟨(C5_greedy_match 0 ⟨[(1, ⟨5, 5, 0, []⟩)], 2⟩ ⟨⟨0, 0, 10, 10⟩, [], none⟩).1.mpr
      ⟨(1, ⟨5, 5, 0, []⟩), by norm_num, by norm_num [isActive],
        by norm_num [dist2, centerX, centerY], by norm_num [sqrtLt, dist2, centerX, centerY]⟩,
   (C5_greedy_match 0 ⟨[(1, ⟨5, 5, 0, []⟩)], 2⟩ ⟨⟨1000, 1000, 10, 10⟩, [], none⟩).2.2
      (by norm_num [step, findBest, centerX, centerY, dist2, sqrtLt, createTrack])⟩

/-- Claim C10: on a table whose keys appear in strictly increasing
(insertion) order, when the scan reports a winner at distance `m`, that
winner is an active entry at distance `m`, and its identity is the
smallest among all active entries lying at exactly distance `m` — the
strict `<` comparison keeps the first minimum in iteration order. -/
theorem C10_tie_breaking (now cx cy : ℚ) (l : List (ℕ × Track))
    (hs : List.Pairwise (fun p q : ℕ × Track => p.1 < q.1) l)
    (j : ℕ) (m : ℚ)
    (h : findBest now cx cy l none (99999 ^ 2) = (some j, m)) :
    (∃ t, (j, t) ∈ l ∧ isActive now (j, t) ∧ dist2 cx cy t = m)
    ∧ ∀ p ∈ l, isActive now p → dist2 cx cy p.2 = m → j ≤ p.1 := by
  rcases findBest_split now cx cy l none (99999 ^ 2)
    with ⟨h1, _⟩ | ⟨l₁, j', tj, l₂, heq, hactj, hlt, hres, hl₁, hl₂⟩
  · rw [h1] at h
    exact absurd h (by simp)
  · rw [hres] at h
    rw [Prod.mk.injEq] at h
    obtain ⟨hj', hm⟩ := h
    cases Option.some.inj hj'
    constructor
    · exact ⟨tj, by rw [heq]; exact List.mem_append_right _ (List.mem_cons_self _ _),
        hactj, hm⟩
    · intro p hp hap hpm
      rw [heq] at hp hs
      rcases List.mem_append.mp hp with hp1 | hp2
      · exact absurd (hl₁ p hp1 hap) (by rw [hpm, hm]; exact lt_irrefl m)
      · rcases List.mem_cons.mp hp2 with rfl | hp3
        · exact le_rfl
        · exact ((List.pairwise_cons.mp (List.pairwise_append.mp hs).2.1).1 p hp3).le

theorem C10_witness :
    (∃ t, (1, t) ∈ [(1, (⟨0, 0, 0, []⟩ : Track)), (2, ⟨10, 0, 0, []⟩)]
        ∧ isActive 0 (1, t) ∧ dist2 5 0 t = 25)
    ∧ ∀ p ∈ [(1, (⟨0, 0, 0, []⟩ : Track)), (2, ⟨10, 0, 0, []⟩)],
        isActive 0 p → dist2 5 0 p.2 = 25 → 1 ≤ p.1 :=
  C10_tie_breaking 0 5 0 _ (by norm_num) 1 25 (by norm_num [findBest, dist2])

/-! ### Claims about staleness and expiry (C6), rendering fallback (C8),
and the exportable record (C3) -/

/-- Claim C6: a track last matched at t = 0 is excluded from matching
candidacy at any `now > 1500` (the scan returns no candidate whatever the
detection centroid is), and the end-of-frame cleanup keeps it in the
table exactly when `now - 0 ≤ 3000` — so it is still present at
now = 2000 and removed at now = 3100 (witness below). -/
theorem C6_expiry (now : ℚ) :
    (1500 < now →
      ∀ cx cy, findBest now cx cy [(1, ⟨0, 0, 0, []⟩)] none (99999 ^ 2)
        = (none, 99999 ^ 2))
    ∧ ((1, (⟨0, 0, 0, []⟩ : Track)) ∈
        (assignTracks now [] ⟨[(1, ⟨0, 0, 0, []⟩)], 2⟩).2.tracks ↔ now ≤ 3000) := by
  constructor
  · intro h cx cy
    simp [findBest, h]
  · simp [assignTracks, frameStep, runDets, List.mem_filter]

theorem C6_witness :
    (∀ cx cy, findBest 2000 cx cy [(1, ⟨0, 0, 0, []⟩)] none (99999 ^ 2)
      = (none, 99999 ^ 2))
    ∧ (1, (⟨0, 0, 0, []⟩ : Track)) ∈
        (assignTracks 2000 [] ⟨[(1, ⟨0, 0, 0, []⟩)], 2⟩).2.tracks
    ∧ (1, (⟨0, 0, 0, []⟩ : Track)) ∉
        (assignTracks 3100 [] ⟨[(1, ⟨0, 0, 0, []⟩)], 2⟩).2.tracks :=
  ⟨(C6_expiry 2000).1 (by norm_num),
   (C6_expiry 2000).2.mpr (by norm_num),
   fun h => absurd ((C6_expiry 3100).2.mp h) (by norm_num)⟩

/-- Claim C8: looking up a detection's expression vector through a track
identity that is not in the table falls back to the detection's own raw
vector (`tracks.get(id)?.exprEMA || det.expressions`); the lookup is a
total function, so it never fails. -/
theorem C8_missing_track_fallback (tracks : List (ℕ × Track)) (det : Det) (id : ℕ)
    (h1 : det.trackId = some id) (h2 : mapGet tracks id = none) :
    exprForDet tracks det = det.expressions := by
  simp [exprForDet, h1, h2]

theorem C8_witness :
    exprForDet [(1, ⟨0, 0, 0, [("happy", some 1)]⟩)]
      ⟨⟨0, 0, 10, 10⟩, [("sad", some 1)], some 7⟩ = [("sad", some 1)] :=
  C8_missing_track_fallback _ _ 7 rfl (by norm_num [mapGet])

/-- Claim C3 fails as stated: for a tracked detection the rendering path
does substitute the track's smoothed vector, but the exportable record's
`expressions` field is the detection's raw vector (`expressions:
d.expressions` on line 272), not the track's smoothed one — here the
smoothed vector is `happy ↦ 37/50` while the export carries `happy ↦ 1/2`. -/
theorem C3_cex :
    exprForDet [(1, ⟨0, 0, 0, [("happy", some (37/50))]⟩)]
      ⟨⟨0, 0, 10, 10⟩, [("happy", some (1/2))], some 1⟩ = [("happy", some (37/50))]
    ∧ ((serializeDetections 0
        [⟨⟨0, 0, 10, 10⟩, [("happy", some (1/2))], some 1⟩]).detections.map
        fun r => r.expressions) = [[("happy", some (1/2))]]
    ∧ [("happy", some ((1:ℚ)/2))] ≠ [("happy", some ((37:ℚ)/50))] := by
  refine ⟨?_, ?_, ?_⟩
  · norm_num [exprForDet, mapGet]
  · norm_num [serializeDetections]
  · norm_num

/-- Claim C3 (amended): for a detection annotated with a track identity
present in the table, the rendering path substitutes the track's current
smoothed vector for the raw one; the exportable record instead carries,
for every detection, the raw expression vector unchanged, together with
the assigned identity and the box coordinates rounded to 0.1. -/
theorem C3_export_raw (tracks : List (ℕ × Track)) (d : Det) (id : ℕ) (t : Track)
    (ts : ℚ) (ds : List Det)
    (h1 : d.trackId = some id) (h2 : mapGet tracks id = some t) :
    exprForDet tracks d = t.exprEMA
    ∧ (serializeDetections ts ds).detections.map (fun r => r.expressions)
        = ds.map Det.expressions
    ∧ (serializeDetections ts ds).detections.map (fun r => (r.bx, r.by', r.bw, r.bh))
        = ds.map (fun d => (round1 d.box.x, round1 d.box.y, round1 d.box.width,
            round1 d.box.height))
    ∧ (serializeDetections ts ds).detections.map (fun r => r.id) = ds.map Det.trackId
    ∧ (serializeDetections ts ds).count = ds.length :=
  ⟨by simp [exprForDet, h1, h2], by simp [serializeDetections],
   by simp [serializeDetections], by simp [serializeDetections],
   by simp [serializeDetections]⟩

theorem C3_witness :
    exprForDet [(1, ⟨0, 0, 0, [("happy", some (37/50))]⟩)]
      ⟨⟨0, 0, 10, 10⟩, [("sad", some (2/5))], some 1⟩ = [("happy", some (37/50))]
    ∧ (serializeDetections 5
        [⟨⟨0, 0, 10, 10⟩, [("sad", some (2/5))], some 1⟩]).detections.map
        (fun r => r.expressions)
        = ([⟨⟨0, 0, 10, 10⟩, [("sad", some (2/5))], some 1⟩] : List Det).map Det.expressions
    ∧ (serializeDetections 5
        [⟨⟨0, 0, 10, 10⟩, [("sad", some (2/5))], some 1⟩]).detections.map
        (fun r => (r.bx, r.by', r.bw, r.bh))
        = ([⟨⟨0, 0, 10, 10⟩, [("sad", some (2/5))], some 1⟩] : List Det).map
            (fun d => (round1 d.box.x, round1 d.box.y, round1 d.box.width,
              round1 d.box.height))
    ∧ (serializeDetections 5
        [⟨⟨0, 0, 10, 10⟩, [("sad", some (2/5))], some 1⟩]).detections.map
        (fun r => r.id)
        = ([⟨⟨0, 0, 10, 10⟩, [("sad", some (2/5))], some 1⟩] : List Det).map Det.trackId
    ∧ (serializeDetections 5
        [⟨⟨0, 0, 10, 10⟩, [("sad", some (2/5))], some 1⟩]).count
        = ([⟨⟨0, 0, 10, 10⟩, [("sad", some (2/5))], some 1⟩] : List Det).length :=
  C3_export_raw [(1, ⟨0, 0, 0, [("happy", some (37/50))]⟩)]
    ⟨⟨0, 0, 10, 10⟩, [("sad", some (2/5))], some 1⟩ 1 ⟨0, 0, 0, [("happy", some (37/50))]⟩
    5 [⟨⟨0, 0, 10, 10⟩, [("sad", some (2/5))], some 1⟩] rfl (by norm_num [mapGet])

/-- Claim C1 fails as stated: two identical detections in one batch, on
an initially empty table, both end the call carrying trackId 1 — the
first creates track 1, the second immediately re-matches it (the `used`
set declared on line 86 is never consulted). -/
theorem C1_cex :
    ((assignTracks 0 [⟨⟨0, 0, 10, 10⟩, [], none⟩, ⟨⟨0, 0, 10, 10⟩, [], none⟩]
      ⟨[], 1⟩).1.map fun p => p.1.trackId) = [some 1, some 1] := by
  norm_num [assignTracks, frameStep, runDets, step, findBest, centerX, centerY, dist2,
    sqrtLt, createTrack, emaExpressions]

/-! ### Identity bookkeeping (C1 amended, C4) -/

/-- Each per-detection step either creates (fresh identity `nextId`,
entry appended, counter bumped) or matches (counter untouched, key list
untouched). -/
theorem step_cases (now : ℚ) (s : St) (det : Det) :
    ((step now s det).2.1 = true ∧ (step now s det).1.trackId = some s.nextId ∧
      (step now s det).2.2 = ⟨s.tracks ++ [(s.nextId, ⟨centerX det.box,
        centerY det.box, now, det.expressions⟩)], s.nextId + 1⟩)
    ∨ ((step now s det).2.1 = false ∧ (step now s det).2.2.nextId = s.nextId ∧
      (step now s det).2.2.tracks.map Prod.fst = s.tracks.map Prod.fst) := by
  rcases hfb : findBest now (centerX det.box) (centerY det.box) s.tracks none (99999 ^ 2)
    with ⟨_ | j, bd⟩
  · rw [step_of_none now s det bd hfb]
    exact Or.inl ⟨rfl, rfl, rfl⟩
  · have h := step_of_some now s det j bd hfb
    by_cases hacc : sqrtLt bd (max det.box.width det.box.height)
    · rw [h, if_pos hacc]
      refine Or.inr ⟨rfl, rfl, ?_⟩
      rw [List.map_map]
      apply List.map_congr_left
      intro p _
      by_cases hpj : p.1 = j <;> simp [hpj]
    · rw [h, if_neg hacc]
      exact Or.inl ⟨rfl, rfl, rfl⟩

theorem step_inv (now : ℚ) (s : St) (det : Det) (h : Inv s) :
    Inv (step now s det).2.2 := by
  rcases step_cases now s det with ⟨_, _, h22⟩ | ⟨_, hnext, hkeys⟩
  · rw [h22]
    constructor
    · intro p hp
      rcases List.mem_append.mp hp with hp1 | hp2
      · exact (h.1 p hp1).trans (Nat.lt_succ_self _)
      · rw [List.mem_singleton.mp hp2]
        exact Nat.lt_succ_self _
    · rw [List.pairwise_append]
      refine ⟨h.2, List.pairwise_singleton _ _, ?_⟩
      intro a ha b hb
      rw [List.mem_singleton.mp hb]
      exact h.1 a ha
  · constructor
    · intro p hp
      have hp1 : p.1 ∈ (step now s det).2.2.tracks.map Prod.fst :=
        List.mem_map.mpr ⟨p, hp, rfl⟩
      rw [hkeys] at hp1
      obtain ⟨q, hq, hq1⟩ := List.mem_map.mp hp1
      rw [hnext, ← hq1]
      exact h.1 q hq
    · exact List.pairwise_map.mp (by rw [hkeys]; exact List.pairwise_map.mpr h.2)

theorem runDets_nextId_le (now : ℚ) (ds : List Det) (s : St) :
    s.nextId ≤ (runDets now ds s).2.nextId := by
  induction ds generalizing s with
  | nil => exact le_rfl
  | cons d ds ih =>
    have h1 : s.nextId ≤ (step now s d).2.2.nextId := by
      rcases step_cases now s d with ⟨_, _, h22⟩ | ⟨_, hnext, _⟩
      · rw [h22]; exact Nat.le_succ _
      · rw [hnext]
    simp only [runDets]
    exact h1.trans (ih _)

theorem runDets_inv (now : ℚ) (ds : List Det) (s : St) (h : Inv s) :
    Inv (runDets now ds s).2 := by
  induction ds generalizing s with
  | nil => exact h
  | cons d ds ih =>
    simp only [runDets]
    exact ih _ (step_inv now s d h)

theorem runDets_created (now : ℚ) (ds : List Det) (s : St) :
    List.Pairwise (· < ·) (createdOf (runDets now ds s).1)
    ∧ ∀ c ∈ createdOf (runDets now ds s).1,
        s.nextId ≤ c ∧ c < (runDets now ds s).2.nextId := by
  induction ds generalizing s with
  | nil => simp [runDets, createdOf]
  | cons d ds ih =>
    simp only [runDets]
    obtain ⟨ihp, ihb⟩ := ih (step now s d).2.2
    rcases step_cases now s d with ⟨hflag, hid, h22⟩ | ⟨hflag, hnext, _⟩
    · have hnext' : (step now s d).2.2.nextId = s.nextId + 1 := by rw [h22]
      have hc : createdOf (((step now s d).1, (step now s d).2.1) ::
            (runDets now ds (step now s d).2.2).1)
          = s.nextId :: createdOf (runDets now ds (step now s d).2.2).1 := by
        simp [createdOf, hflag, hid]
      rw [hc]
      constructor
      · refine List.pairwise_cons.mpr ⟨fun c hc' => ?_, ihp⟩
        have := (ihb c hc').1
        rw [hnext'] at this
        exact lt_of_lt_of_le (Nat.lt_succ_self _) this
      · intro c hc'
        rcases List.mem_cons.mp hc' with rfl | hmem
        · refine ⟨le_rfl, lt_of_lt_of_le ?_ (runDets_nextId_le now ds _)⟩
          rw [hnext']
          exact Nat.lt_succ_self _
        · obtain ⟨hb1, hb2⟩ := ihb c hmem
          refine ⟨le_trans ?_ hb1, hb2⟩
          rw [hnext']
          exact Nat.le_succ _
    · have hc : createdOf (((step now s d).1, (step now s d).2.1) ::
            (runDets now ds (step now s d).2.2).1)
          = createdOf (runDets now ds (step now s d).2.2).1 := by
        simp [createdOf, hflag]
      rw [hc]
      exact ⟨ihp, fun c hc' =>
        ⟨le_trans (le_of_eq hnext.symm) (ihb c hc').1, (ihb c hc').2⟩⟩

theorem frameStep_inv (now : ℚ) (dets : List Det) (s : St) (h : Inv s) :
    Inv (frameStep now dets s).2.2 := by
  have hr := runDets_inv now dets s h
  constructor
  · intro p hp
    exact hr.1 p (List.mem_of_mem_filter hp)
  · exact hr.2.sublist (List.filter_sublist _)

theorem frameStep_deleted (now : ℚ) (dets : List Det) (s : St) (h : Inv s) :
    ∀ d ∈ (frameStep now dets s).2.1, d < (frameStep now dets s).2.2.nextId := by
  intro d hd
  obtain ⟨p, hp, hp1⟩ := List.mem_map.mp hd
  rw [← hp1]
  exact (runDets_inv now dets s h).1 p (List.mem_of_mem_filter hp)

theorem runFrames_spec (fs : List (ℚ × List Det)) (s : St) (h : Inv s) :
    Inv (runFrames fs s).2
    ∧ s.nextId ≤ (runFrames fs s).2.nextId
    ∧ (∀ pr ∈ (runFrames fs s).1, ∀ c ∈ pr.1, s.nextId ≤ c)
    ∧ List.Pairwise (· < ·) (((runFrames fs s).1.map Prod.fst).flatten)
    ∧ List.Pairwise (fun a b : List ℕ × List ℕ => ∀ d ∈ a.2, ∀ c ∈ b.1, d < c)
        (runFrames fs s).1 := by
  induction fs generalizing s with
  | nil =>
    refine ⟨h, le_rfl, by simp [runFrames], by simp [runFrames], by simp [runFrames]⟩
  | cons f fs ih =>
    simp only [runFrames]
    have hinv1 : Inv (frameStep f.1 f.2 s).2.2 := frameStep_inv f.1 f.2 s h
    obtain ⟨ihInv, ihLe, ihLb, ihJoin, ihTrace⟩ := ih (frameStep f.1 f.2 s).2.2 hinv1
    have hcreated := runDets_created f.1 f.2 s
    have hstep_le : s.nextId ≤ (frameStep f.1 f.2 s).2.2.nextId :=
      runDets_nextId_le f.1 f.2 s
    have hdel := frameStep_deleted f.1 f.2 s h
    have hcub : ∀ c ∈ createdOf (frameStep f.1 f.2 s).1,
        c < (frameStep f.1 f.2 s).2.2.nextId := fun c hc => (hcreated.2 c hc).2
    have hclb : ∀ c ∈ createdOf (frameStep f.1 f.2 s).1, s.nextId ≤ c :=
      fun c hc => (hcreated.2 c hc).1
    refine ⟨ihInv, hstep_le.trans ihLe, ?_, ?_, ?_⟩
    · intro pr hpr c hc
      rcases List.mem_cons.mp hpr with rfl | hmem
      · exact hclb c hc
      · exact hstep_le.trans (ihLb pr hmem c hc)
    · rw [List.map_cons, List.flatten_cons, List.pairwise_append]
      refine ⟨hcreated.1, ihJoin, ?_⟩
      intro a ha b hb
      obtain ⟨xs, hxs, hbxs⟩ := List.mem_flatten.mp hb
      obtain ⟨pr, hpr, hpr1⟩ := List.mem_map.mp hxs
      refine lt_of_lt_of_le (hcub a ha) (ihLb pr hpr b ?_)
      rw [hpr1]
      exact hbxs
    · refine List.pairwise_cons.mpr ⟨?_, ihTrace⟩
      intro pr hpr d hd c hc
      exact lt_of_lt_of_le (hdel d hd) (ihLb pr hpr c hc)

/-- Claim C1 fails as stated (see the counterexample); amended: the
matcher guarantees per-frame uniqueness only for identities handed out by
the create branch — those are pairwise distinct (in fact strictly
increasing) within any one `assignTracks` call — while a matched identity
may be shared by several detections of the same batch. -/
theorem C1_created_distinct (now : ℚ) (dets : List Det) (s : St) :
    List.Pairwise (· < ·) (createdOf (assignTracks now dets s).1) :=
  (runDets_created now dets s).1

/-- Claim C4: starting from any state satisfying the key invariant (all
keys below `nextId`, keys in insertion order), over any sequence of
`assignTracks` calls the identities returned by track creation strictly
increase across the whole run, and an identity deleted by expiry in an
earlier frame is strictly below (hence never equal to) every identity
created in any later frame. -/
theorem C4_identity_monotone (fs : List (ℚ × List Det)) (s : St) (h : Inv s) :
    List.Pairwise (· < ·) (((runFrames fs s).1.map Prod.fst).flatten)
    ∧ List.Pairwise (fun a b : List ℕ × List ℕ => ∀ d ∈ a.2, ∀ c ∈ b.1, d < c)
        (runFrames fs s).1 :=
  ⟨(runFrames_spec fs s h).2.2.2.1, (runFrames_spec fs s h).2.2.2.2⟩

theorem C4_witness :
    List.Pairwise (· < ·) (((runFrames [(0, [⟨⟨0, 0, 10, 10⟩, [], none⟩]),
        (5000, [⟨⟨0, 0, 10, 10⟩, [], none⟩])] ⟨[], 1⟩).1.map Prod.fst).flatten)
    ∧ List.Pairwise (fun a b : List ℕ × List ℕ => ∀ d ∈ a.2, ∀ c ∈ b.1, d < c)
        (runFrames [(0, [⟨⟨0, 0, 10, 10⟩, [], none⟩]),
          (5000, [⟨⟨0, 0, 10, 10⟩, [], none⟩])] ⟨[], 1⟩).1 :=
  C4_identity_monotone _ _ ⟨by simp, by simp⟩

end EmojiFace
